import Mathlib

/-!
Verification development for the JSON document builder and view module
(source file source/JsonObject.cpp, classes Aws::Crt::JsonObject and
Aws::Crt::JsonView).

The module wraps an external tree library (cJSON, not part of the staged
sources). Following the specification, that library is modelled here as a
tagged tree with typed leaves and object nodes holding ordered, named,
case-sensitively compared children. Definitions taken from the staged
source carry a comment naming the C++ symbol; definitions for the external
tree primitives carry a comment starting with `Modelled from the spec:`.

Conventions of the embedding:
- Machine doubles are modelled exactly by decimal numbers `JNum` (value
  m / 10 ^ e); IEEE-754 rounding and formatting are outside the model.
- Fallible fatal checks (AWS_ASSERT) are modelled with `Except Unit`:
  `Except.error ()` is an assertion failure, `Except.ok` a normal return.
- Mutating members become pure functions from the old object to the new
  one; members that call Destroy on the owned tree also return the subtree
  handed to Destroy (`none` when nothing is released), so that release
  behaviour is observable in the model.
-/

/-- Exact decimal stand-in for the `double` payload of a number node: the
represented value is `m / 10 ^ e`. -/
structure JNum where
  m : Int
  e : Nat
deriving DecidableEq, Repr

mutual

/-- Modelled from the spec: a tree node of the external library, a tagged
node that is Null, Bool, Number, String, Array of nodes, or Object with
ordered named children. -/
inductive JTree where
  | null
  | bool (b : Bool)
  | num (x : JNum)
  | str (s : String)
  | arr (items : JItems)
  | obj (fields : JFields)
deriving DecidableEq, Repr

/-- Ordered sequence of array elements. -/
inductive JItems where
  | nil
  | cons (hd : JTree) (tl : JItems)
deriving DecidableEq, Repr

/-- Ordered sequence of named object children. -/
inductive JFields where
  | nil
  | cons (k : String) (v : JTree) (tl : JFields)
deriving DecidableEq, Repr

end

/-- Names of the children of an object node, in child order. -/
def fieldsKeys : JFields → List String
  | .nil => []
  | .cons k _ fs => k :: fieldsKeys fs

/-- Children of an object node as a list of (name, value) pairs. -/
def fieldsToList : JFields → List (String × JTree)
  | .nil => []
  | .cons k v fs => (k, v) :: fieldsToList fs

/-- Modelled from the spec: `cJSON_GetObjectItemCaseSensitive`, the
case-sensitive lookup of the first child with the given name among the
ordered children of an object node. -/
def getObjectItemCS : JFields → String → Option JTree
  | .nil, _ => none
  | .cons k v fs, key => if k = key then some v else getObjectItemCS fs key

/-- Modelled from the spec: `cJSON_ReplaceItemInObjectCaseSensitive`, which
replaces the first child with the given name in place, keeping its position
in the child order. -/
def replaceItemCS : JFields → String → JTree → JFields
  | .nil, _, _ => .nil
  | .cons k v fs, key, newV => if k = key then .cons key newV fs else .cons k v (replaceItemCS fs key newV)

/-- Modelled from the spec: `cJSON_AddItemToObject` appends a named child
as the last child of an object node. -/
def addItemToObject (fs : JFields) (key : String) (v : JTree) : JFields :=
  match fs with
  | .nil => .cons key v .nil
  | .cons k w tl => .cons k w (addItemToObject tl key v)

/-- Source symbol `AddOrReplace` (static helper): replace the existing
child with this name in place when present, otherwise append. -/
def addOrReplace (fs : JFields) (key : String) (v : JTree) : JFields :=
  match getObjectItemCS fs key with
  | some _ => replaceItemCS fs key v
  | none => addItemToObject fs key v

/-- Modelled from the spec: number compare of the external structural
compare; two number nodes are equal when they hold the same numeric value. -/
def numEq (a b : JNum) : Bool :=
  a.m * (10 : Int) ^ b.e = b.m * (10 : Int) ^ a.e

mutual

/-- Modelled from the spec: `cJSON_Compare` in case-sensitive mode, the
structural compare of two trees. -/
def treeEq : JTree → JTree → Bool
  | .null, .null => true
  | .bool a, .bool b => a = b
  | .num a, .num b => numEq a b
  | .str a, .str b => a = b
  | .arr a, .arr b => itemsEq a b
  | .obj a, .obj b => fieldsEq a b
  | _, _ => false

/-- Structural compare of two element sequences. -/
def itemsEq : JItems → JItems → Bool
  | .nil, .nil => true
  | .cons a as, .cons b bs => treeEq a b && itemsEq as bs
  | _, _ => false

/-- Structural compare of two child sequences (names case-sensitive). -/
def fieldsEq : JFields → JFields → Bool
  | .nil, .nil => true
  | .cons ka va fa, .cons kb vb fb => ka = kb && treeEq va vb && fieldsEq fa fb
  | _, _ => false

end

/-- Modelled from the spec: the compare of two nullable roots. The spec
states that a compare of two null roots is considered equal. -/
def rootCompare : Option JTree → Option JTree → Bool
  | none, none => true
  | some a, some b => treeEq a b
  | _, _ => false

/-- Source class `Aws::Crt::JsonObject`: the owning document. The allocator
handle carries no contract and is not modelled. -/
structure JsonObject where
  m_value : Option JTree
  m_wasParseSuccessful : Bool
  m_errorMessage : String
deriving DecidableEq, Repr

/-- Source constructor `JsonObject(Allocator*)`: the empty document. -/
def JsonObject.empty : JsonObject := ⟨none, true, ""⟩

/-- Source class `Aws::Crt::JsonView`: the non-owning cursor, a nullable
reference to a node of some owned tree. -/
structure JsonView where
  m_value : Option JTree
deriving DecidableEq, Repr

/-- Source member `JsonObject::View`. -/
def JsonObject.View (d : JsonObject) : JsonView := ⟨d.m_value⟩

/-- Precondition of the keyed With mutators taken from the spec: they
insert or replace a named child assuming an object root, auto-creating an
empty object root if absent. A document whose root is a non-object leaf is
outside the domain the spec gives these mutators. -/
def RootOk (d : JsonObject) : Prop :=
  match d.m_value with
  | none => True
  | some (.obj _) => True
  | some _ => False

instance (d : JsonObject) : Decidable (RootOk d) := by
  unfold RootOk
  exact match d.m_value with
  | none => inferInstanceAs (Decidable True)
  | some (.obj _) => inferInstanceAs (Decidable True)
  | some .null | some (.bool _) | some (.num _) | some (.str _) | some (.arr _) =>
      inferInstanceAs (Decidable False)

/-- Invariant of the spec data model: the names of the children of an
object node are unique within the node. -/
def KeysNodup (d : JsonObject) : Prop :=
  match d.m_value with
  | some (.obj fs) => (fieldsKeys fs).Nodup
  | _ => True

/-- Core of every keyed mutator: lazily create an empty object root, then
add or replace the named child. On a non-object root (outside the domain
given by the spec, see `RootOk`) the document is returned unchanged. -/
def JsonObject.withValue (d : JsonObject) (key : String) (v : JTree) : JsonObject :=
  match d.m_value with
  | none => ⟨some (.obj (addOrReplace .nil key v)), d.m_wasParseSuccessful, d.m_errorMessage⟩
  | some (.obj fs) => ⟨some (.obj (addOrReplace fs key v)), d.m_wasParseSuccessful, d.m_errorMessage⟩
  | some _ => d

/-- Source member `JsonObject::WithString`. -/
def JsonObject.withString (d : JsonObject) (key value : String) : JsonObject :=
  d.withValue key (.str value)

/-- Source member `JsonObject::WithBool`. -/
def JsonObject.withBool (d : JsonObject) (key : String) (value : Bool) : JsonObject :=
  d.withValue key (.bool value)

/-- Source member `JsonObject::WithDouble`. -/
def JsonObject.withDouble (d : JsonObject) (key : String) (value : JNum) : JsonObject :=
  d.withValue key (.num value)

/-- Source member `JsonObject::WithInteger`: stores the integer through
WithDouble after a cast to double. -/
def JsonObject.withInteger (d : JsonObject) (key : String) (value : Int) : JsonObject :=
  d.withDouble key ⟨value, 0⟩

/-- Source member `JsonObject::WithInt64`: stores the integer through
WithDouble after a cast to double. -/
def JsonObject.withInt64 (d : JsonObject) (key : String) (value : Int) : JsonObject :=
  d.withDouble key ⟨value, 0⟩

/-- String leaves for the string-array overload, in order. -/
def itemsOfStrings : List String → JItems
  | [] => .nil
  | s :: ss => .cons (.str s) (itemsOfStrings ss)

/-- Source member `JsonObject::WithArray(const char*, const Vector<String>&)`. -/
def JsonObject.withArrayStrings (d : JsonObject) (key : String) (array : List String) : JsonObject :=
  d.withValue key (.arr (itemsOfStrings array))

/-- Trees collected from a sequence of documents, in order. A document with
no tree contributes nothing: there is no subtree to duplicate or adopt. -/
def collectTrees : List JsonObject → JItems
  | [] => .nil
  | x :: xs =>
    match x.m_value with
    | some t => .cons t (collectTrees xs)
    | none => collectTrees xs

/-- Source member `JsonObject::WithArray(const String&, const Vector<JsonObject>&)`
(copy overload): duplicates every element tree into a fresh array child.
The second component is the state of the argument vector after the call. -/
def JsonObject.withArrayCopy (d : JsonObject) (key : String) (array : List JsonObject) :
    JsonObject × List JsonObject :=
  (d.withValue key (.arr (collectTrees array)), array)

/-- Source member `JsonObject::WithArray(const String&, Vector<JsonObject>&&)`
(move overload): adopts every element tree into a fresh array child and
nulls the root of every element. The second component is the state of the
argument vector after the call. -/
def JsonObject.withArrayMove (d : JsonObject) (key : String) (array : List JsonObject) :
    JsonObject × List JsonObject :=
  (d.withValue key (.arr (collectTrees array)),
   array.map (fun x => ⟨none, x.m_wasParseSuccessful, x.m_errorMessage⟩))

/-- Source member `JsonObject::WithObject` (copy overload): the child is a
duplicate of the source tree, or a fresh empty object when the source has
no tree; the source document is untouched. The second component is the
state of the source after the call. -/
def JsonObject.withObjectCopy (d : JsonObject) (key : String) (value : JsonObject) :
    JsonObject × JsonObject :=
  (d.withValue key ((value.m_value).getD (.obj .nil)), value)

/-- Source member `JsonObject::WithObject` (move overload): the child
adopts the source tree without duplication, or is a fresh empty object when
the source has no tree; the source root is set to null. The second
component is the state of the source after the call. -/
def JsonObject.withObjectMove (d : JsonObject) (key : String) (value : JsonObject) :
    JsonObject × JsonObject :=
  (d.withValue key ((value.m_value).getD (.obj .nil)),
   ⟨none, value.m_wasParseSuccessful, value.m_errorMessage⟩)

/-- Source member `JsonObject::AsString`: Destroy, then a fresh string
leaf. The second component is the subtree handed to Destroy. -/
def JsonObject.asString (d : JsonObject) (value : String) : JsonObject × Option JTree :=
  (⟨some (.str value), d.m_wasParseSuccessful, d.m_errorMessage⟩, d.m_value)

/-- Source member `JsonObject::AsBool`: Destroy, then a fresh bool leaf. -/
def JsonObject.asBool (d : JsonObject) (value : Bool) : JsonObject × Option JTree :=
  (⟨some (.bool value), d.m_wasParseSuccessful, d.m_errorMessage⟩, d.m_value)

/-- Source member `JsonObject::AsDouble`: Destroy, then a fresh number
leaf. -/
def JsonObject.asDouble (d : JsonObject) (value : JNum) : JsonObject × Option JTree :=
  (⟨some (.num value), d.m_wasParseSuccessful, d.m_errorMessage⟩, d.m_value)

/-- Source member `JsonObject::AsInteger`: Destroy, then a fresh number
leaf holding the integer cast to double. -/
def JsonObject.asInteger (d : JsonObject) (value : Int) : JsonObject × Option JTree :=
  d.asDouble ⟨value, 0⟩

/-- Source member `JsonObject::AsInt64`: forwards to AsDouble after a cast
to double. -/
def JsonObject.asInt64 (d : JsonObject) (value : Int) : JsonObject × Option JTree :=
  d.asDouble ⟨value, 0⟩

/-- Source member `JsonObject::AsNull`: the source assigns a fresh null
leaf to the root WITHOUT calling Destroy first, so nothing is handed to
Destroy and the previously owned subtree is never released. -/
def JsonObject.asNull (d : JsonObject) : JsonObject × Option JTree :=
  (⟨some .null, d.m_wasParseSuccessful, d.m_errorMessage⟩, none)

/-- Source member `JsonObject::AsArray` (copy overload): builds the array
from duplicated element trees, then Destroy, then adopts the array. -/
def JsonObject.asArrayCopy (d : JsonObject) (array : List JsonObject) : JsonObject × Option JTree :=
  (⟨some (.arr (collectTrees array)), d.m_wasParseSuccessful, d.m_errorMessage⟩, d.m_value)

/-- Source member `JsonObject::AsArray` (move overload): builds the array
from adopted element trees, then Destroy, then adopts the array; every
element of the argument vector is left with a null root. The third
component is the state of the argument vector after the call. -/
def JsonObject.asArrayMove (d : JsonObject) (array : List JsonObject) :
    JsonObject × Option JTree × List JsonObject :=
  (⟨some (.arr (collectTrees array)), d.m_wasParseSuccessful, d.m_errorMessage⟩, d.m_value,
   array.map (fun x => ⟨none, x.m_wasParseSuccessful, x.m_errorMessage⟩))

/-- Source member `JsonObject::AsObject` (copy overload): plain copy
assignment from the source, which destroys the own tree, duplicates the
source tree and copies the parse flag and the error message. The second
component is the subtree handed to Destroy. -/
def JsonObject.asObject (d : JsonObject) (value : JsonObject) : JsonObject × Option JTree :=
  (⟨value.m_value, value.m_wasParseSuccessful, value.m_errorMessage⟩, d.m_value)

/-- Source member `JsonObject::operator==`: case-sensitive structural
compare of the two owned trees. -/
def JsonObject.opEq (a b : JsonObject) : Bool :=
  rootCompare a.m_value b.m_value

/-- Modelled from the spec: `cJSON_GetStringValue`, the external accessor
that yields the text of a string leaf and nothing otherwise (also nothing
on a null reference). -/
def getStringValue : Option JTree → Option String
  | some (.str s) => some s
  | _ => none

/-- Source member `JsonView::AsString`: reads the string value through
cJSON_GetStringValue and substitutes the empty string when that yields
nothing. The body contains no AWS_ASSERT, so no assertion failure is
possible and the result is always `Except.ok`. -/
def JsonView.asString (v : JsonView) : Except Unit String :=
  .ok ((getStringValue v.m_value).getD "")

/-- Source member `JsonView::AsBool`: AWS_ASSERT that the node is a bool,
then its value. -/
def JsonView.asBool (v : JsonView) : Except Unit Bool :=
  match v.m_value with
  | some (.bool b) => .ok b
  | _ => .error ()

/-- Source member `JsonView::AsDouble`: AWS_ASSERT that the node is a
number, then its value. -/
def JsonView.asDouble (v : JsonView) : Except Unit JNum :=
  match v.m_value with
  | some (.num x) => .ok x
  | _ => .error ()

/-- Source member `JsonView::GetJsonObject(const char*)`: AWS_ASSERT that
the view is bound, then the result of the case-sensitive child lookup —
possibly an unbound view, with no assertion on the lookup result. -/
def JsonView.getJsonObject (v : JsonView) (key : String) : Except Unit JsonView :=
  match v.m_value with
  | none => .error ()
  | some (.obj fs) => .ok ⟨getObjectItemCS fs key⟩
  | some _ => .ok ⟨none⟩

/-- Source member `JsonView::KeyExists`: false unless the node is an
object; otherwise whether the case-sensitive lookup finds a child. -/
def JsonView.keyExists (v : JsonView) (key : String) : Bool :=
  match v.m_value with
  | some (.obj fs) => (getObjectItemCS fs key).isSome
  | _ => false

/-- Source member `JsonView::ValueExists`: false unless the node is an
object; otherwise whether the case-sensitive lookup finds a child whose
value is not the JSON null leaf. -/
def JsonView.valueExists (v : JsonView) (key : String) : Bool :=
  match v.m_value with
  | some (.obj fs) =>
    match getObjectItemCS fs key with
    | some t => !(t matches .null)
    | none => false
  | _ => false

/-- Source member `JsonView::IsObject`: false on an unbound view. -/
def JsonView.isObject (v : JsonView) : Bool :=
  v.m_value matches some (.obj _)

/-- Source member `JsonView::IsBool`: false on an unbound view. -/
def JsonView.isBool (v : JsonView) : Bool :=
  v.m_value matches some (.bool _)

/-- Source member `JsonView::IsString`: false on an unbound view. -/
def JsonView.isString (v : JsonView) : Bool :=
  v.m_value matches some (.str _)

/-- Source member `JsonView::IsListType`: false on an unbound view. -/
def JsonView.isListType (v : JsonView) : Bool :=
  v.m_value matches some (.arr _)

/-- Source member `JsonView::IsNull`: false on an unbound view. -/
def JsonView.isNull (v : JsonView) : Bool :=
  v.m_value matches some .null

/-- Decimal digit character for a digit value. -/
def decDigit : Nat → Char
  | 0 => '0' | 1 => '1' | 2 => '2' | 3 => '3' | 4 => '4'
  | 5 => '5' | 6 => '6' | 7 => '7' | 8 => '8' | _ => '9'

/-- Hexadecimal digit character for a digit value (lower case). -/
def hexDigitChar : Nat → Char
  | 0 => '0' | 1 => '1' | 2 => '2' | 3 => '3' | 4 => '4'
  | 5 => '5' | 6 => '6' | 7 => '7' | 8 => '8' | 9 => '9'
  | 10 => 'a' | 11 => 'b' | 12 => 'c' | 13 => 'd' | 14 => 'e' | _ => 'f'

/-- Numeric value of a decimal digit character. -/
def digitVal (c : Char) : Nat := c.toNat - 48

/-- Numeric value of a hexadecimal digit character, when it is one. -/
def hexVal (c : Char) : Option Nat :=
  if '0' ≤ c ∧ c ≤ '9' then some (c.toNat - 48)
  else if 'a' ≤ c ∧ c ≤ 'f' then some (c.toNat - 87)
  else if 'A' ≤ c ∧ c ≤ 'F' then some (c.toNat - 55)
  else none

/-- Decimal digit characters of a natural number, most significant first;
empty for zero. -/
def natDigitChars (k : Nat) : List Char :=
  ((Nat.digits 10 k).reverse).map decDigit

/-- Decimal digit characters of a natural number, zero-padded on the left
to at least the given width. -/
def natPadded (k width : Nat) : List Char :=
  List.replicate (width - (natDigitChars k).length) '0' ++ natDigitChars k

/-- Modelled from the spec: the number printer of the external compact
printer. The decimal value m / 10 ^ e is written with exactly e digits
after the point (no point at all when e is zero). -/
def printNum (x : JNum) : List Char :=
  let D := natPadded x.m.natAbs (x.e + 1)
  let signPart : List Char := if x.m < 0 then ['-'] else []
  if x.e = 0 then signPart ++ D
  else signPart ++ (D.take (D.length - x.e) ++ '.' :: D.drop (D.length - x.e))

/-- Modelled from the spec: the string escaper of the external printer,
RFC 8259 compatible: quote, backslash and control characters are escaped,
control characters without a short form as \u00XX. -/
def escChar (c : Char) : List Char :=
  if c = '"' then ['\\', '"']
  else if c = '\\' then ['\\', '\\']
  else if c = Char.ofNat 8 then ['\\', 'b']
  else if c = Char.ofNat 12 then ['\\', 'f']
  else if c = '\n' then ['\\', 'n']
  else if c = '\r' then ['\\', 'r']
  else if c = '\t' then ['\\', 't']
  else if c.toNat < 32 then ['\\', 'u', '0', '0', hexDigitChar (c.toNat / 16), hexDigitChar (c.toNat % 16)]
  else [c]

/-- Escaped form of a character sequence. -/
def escList : List Char → List Char
  | [] => []
  | c :: cs => escChar c ++ escList cs

mutual

/-- Modelled from the spec: `cJSON_PrintUnformatted`, the compact printer
(no inserted whitespace). -/
def printVal : JTree → List Char
  | .null => ['n', 'u', 'l', 'l']
  | .bool b => cond b ['t', 'r', 'u', 'e'] ['f', 'a', 'l', 's', 'e']
  | .num x => printNum x
  | .str s => '"' :: (escList s.data ++ ['"'])
  | .arr items => '[' :: (printItems items ++ [']'])
  | .obj fields => '{' :: (printFields fields ++ ['}'])

/-- Printed body of an array (without the brackets). -/
def printItems : JItems → List Char
  | .nil => []
  | .cons t ts => printVal t ++ printSep ts

/-- Comma-separated continuation of an array body. -/
def printSep : JItems → List Char
  | .nil => []
  | .cons t ts => ',' :: (printVal t ++ printSep ts)

/-- Printed body of an object (without the braces): quoted name, colon,
value for the first child, then the comma-separated continuation. -/
def printFields : JFields → List Char
  | .nil => []
  | .cons k v fs => '"' :: (escList k.data ++ '"' :: ':' :: (printVal v ++ printFieldSep fs))

/-- Comma-separated continuation of an object body. -/
def printFieldSep : JFields → List Char
  | .nil => []
  | .cons k v fs => ',' :: '"' :: (escList k.data ++ '"' :: ':' :: (printVal v ++ printFieldSep fs))

end

/-- Source member `JsonView::WriteCompact`: an unbound view serializes to
"{}" or to the empty string depending on treatAsObject; a bound view is
printed by the external compact printer. -/
def JsonView.writeCompact (v : JsonView) (treatAsObject : Bool) : String :=
  match v.m_value with
  | none => if treatAsObject then "{}" else ""
  | some t => String.mk (printVal t)

/-- Test on the head character of the remaining input. -/
def headIs (c : Char) : List Char → Bool
  | [] => false
  | d :: _ => d = c

/-- Literal matcher: consumes exactly the given characters. -/
def expectLit : List Char → List Char → Option (List Char)
  | [], rest => some rest
  | _ :: _, [] => none
  | p :: ps, c :: cs => if c = p then expectLit ps cs else none

/-- Prepends a character to the collected part of a parse result. -/
def consFst (c : Char) : Option (List Char × List Char) → Option (List Char × List Char) :=
  Option.map (fun p => (c :: p.1, p.2))

/-- Modelled from the spec: the string body parser of the external parser,
entered after the opening quote; handles the RFC 8259 escapes (for \u only
code points below the surrogate range, which covers everything the printer
emits). -/
def parseStrBody : List Char → Option (List Char × List Char)
  | [] => none
  | c :: cs =>
    if c = '"' then some ([], cs)
    else if c = '\\' then
      match cs with
      | [] => none
      | e :: cs2 =>
        if e = '"' then consFst '"' (parseStrBody cs2)
        else if e = '\\' then consFst '\\' (parseStrBody cs2)
        else if e = '/' then consFst '/' (parseStrBody cs2)
        else if e = 'b' then consFst (Char.ofNat 8) (parseStrBody cs2)
        else if e = 'f' then consFst (Char.ofNat 12) (parseStrBody cs2)
        else if e = 'n' then consFst '\n' (parseStrBody cs2)
        else if e = 'r' then consFst '\r' (parseStrBody cs2)
        else if e = 't' then consFst '\t' (parseStrBody cs2)
        else if e = 'u' then
          match cs2 with
          | h1 :: h2 :: h3 :: h4 :: cs3 =>
            match hexVal h1, hexVal h2, hexVal h3, hexVal h4 with
            | some a, some b, some c2, some d2 =>
              let code := ((a * 16 + b) * 16 + c2) * 16 + d2
              if code < 55296 then consFst (Char.ofNat code) (parseStrBody cs3) else none
            | _, _, _, _ => none
          | _ => none
        else none
    else consFst c (parseStrBody cs)

/-- Greedy decimal digit scan: the accumulated value, the number of digits
consumed, and the remaining input. -/
def parseDigits (acc : Nat) : List Char → Nat × Nat × List Char
  | [] => (acc, 0, [])
  | c :: cs =>
    if c.isDigit then
      let r := parseDigits (acc * 10 + digitVal c) cs
      (r.1, r.2.1 + 1, r.2.2)
    else (acc, 0, c :: cs)

/-- Signed mantissa from the sign flag and the absolute value. -/
def signedOf (neg : Bool) (k : Nat) : Int :=
  if neg then -(k : Int) else (k : Int)

/-- Unsigned part of the number parser: integer digits, then an optional
point with fraction digits; yields the value scaled to an integer, the
number of fraction digits and the remaining input. -/
def parseNumAbs (cs : List Char) : Option (Nat × Nat × List Char) :=
  match cs with
  | [] => none
  | c :: _ =>
    if c.isDigit then
      let r := parseDigits 0 cs
      if headIs '.' r.2.2 then
        match r.2.2.tail with
        | [] => none
        | c2 :: _ =>
          if c2.isDigit then
            let r2 := parseDigits 0 r.2.2.tail
            some (r.1 * 10 ^ r2.2.1 + r2.1, r2.2.1, r2.2.2)
          else none
      else some (r.1, 0, r.2.2)
    else none

/-- Modelled from the spec: the number parser of the external parser,
restricted to the plain decimal forms the compact printer emits (optional
sign, integer digits, optional point with fraction digits). -/
def parseNum (cs : List Char) : Option (JNum × List Char) :=
  let neg := headIs '-' cs
  (parseNumAbs (if neg then cs.tail else cs)).map
    (fun p => (⟨signedOf neg p.1, p.2.1⟩, p.2.2))

mutual

/-- Modelled from the spec: the recursive-descent value parser of the
external parser (`cJSON_ParseWithOpts`), with explicit fuel for the
recursion depth; covers the compact grammar the printer emits. -/
def parseVal : Nat → List Char → Option (JTree × List Char)
  | 0, _ => none
  | _ + 1, [] => none
  | fuel + 1, c :: cs =>
    if c = 'n' then (expectLit ['u', 'l', 'l'] cs).map (fun r => (JTree.null, r))
    else if c = 't' then (expectLit ['r', 'u', 'e'] cs).map (fun r => (JTree.bool true, r))
    else if c = 'f' then (expectLit ['a', 'l', 's', 'e'] cs).map (fun r => (JTree.bool false, r))
    else if c = '"' then (parseStrBody cs).map (fun p => (JTree.str (String.mk p.1), p.2))
    else if c = '[' then
      if headIs ']' cs then some (JTree.arr .nil, cs.tail)
      else
        match parseVal fuel cs with
        | none => none
        | some (t, r1) =>
          match parseArrSep fuel r1 with
          | none => none
          | some (ts, r2) => some (JTree.arr (.cons t ts), r2)
    else if c = '{' then
      if headIs '}' cs then some (JTree.obj .nil, cs.tail)
      else if headIs '"' cs then
        match parseStrBody cs.tail with
        | none => none
        | some (k, r1) =>
          if headIs ':' r1 then
            match parseVal fuel r1.tail with
            | none => none
            | some (v, r2) =>
              match parseObjSep fuel r2 with
              | none => none
              | some (fs, r3) => some (JTree.obj (.cons (String.mk k) v fs), r3)
          else none
      else none
    else if c = '-' ∨ c.isDigit then (parseNum (c :: cs)).map (fun p => (JTree.num p.1, p.2))
    else none

/-- Continuation of an array body after the first element: a comma and a
value, repeated, then the closing bracket. -/
def parseArrSep : Nat → List Char → Option (JItems × List Char)
  | 0, _ => none
  | _ + 1, [] => none
  | fuel + 1, c :: cs =>
    if c = ']' then some (.nil, cs)
    else if c = ',' then
      match parseVal fuel cs with
      | none => none
      | some (t, r1) => (parseArrSep fuel r1).map (fun p => (JItems.cons t p.1, p.2))
    else none

/-- Continuation of an object body after the first child: a comma and a
quoted name, colon and value, repeated, then the closing brace. -/
def parseObjSep : Nat → List Char → Option (JFields × List Char)
  | 0, _ => none
  | _ + 1, [] => none
  | fuel + 1, c :: cs =>
    if c = '}' then some (.nil, cs)
    else if c = ',' then
      if headIs '"' cs then
        match parseStrBody cs.tail with
        | none => none
        | some (k, r1) =>
          if headIs ':' r1 then
            match parseVal fuel r1.tail with
            | none => none
            | some (v, r2) => (parseObjSep fuel r2).map (fun p => (JFields.cons (String.mk k) v p.1, p.2))
          else none
      else none
    else none

end

/-- Source constructor `JsonObject(const String&, Allocator*)`: parse the
text; on failure the document keeps a null root, clears the parse flag and
stores a diagnostic message (the byte position embedded in the real
message is abstracted away). Trailing input after the first value is
tolerated, as with the require-null-terminated option unset. -/
def JsonObject.ofString (value : String) : JsonObject :=
  match parseVal (value.length + 1) value.data with
  | some (t, _) => ⟨some t, true, ""⟩
  | none => ⟨none, false, "Failed to parse JSON at: "⟩

/-- Accumulated decimal value of a digit character sequence. -/
def valD (acc : Nat) (ds : List Char) : Nat :=
  ds.foldl (fun a c => a * 10 + digitVal c) acc

/-- Head of the remaining input is not a digit. -/
def notDigitHead : List Char → Bool
  | [] => true
  | c :: _ => !c.isDigit

/-- Head of the remaining input neither continues a digit run nor starts a
fraction: the separator condition after a printed number. -/
def numStop : List Char → Bool
  | [] => true
  | c :: _ => !c.isDigit && !(c = '.')


mutual

/-- Programs over the fluent builder interface: one constructor per With or
As mutator of the source; sub-documents are built by sub-programs starting
from the empty document. -/
inductive BuildOp where
  | withString (k v : String)
  | withBool (k : String) (b : Bool)
  | withInteger (k : String) (n : Int)
  | withInt64 (k : String) (n : Int)
  | withDouble (k : String) (x : JNum)
  | withArrayStrings (k : String) (vs : List String)
  | withArrayCopy (k : String) (elems : BuildList)
  | withArrayMove (k : String) (elems : BuildList)
  | withObjectCopy (k : String) (sub : BuildProg)
  | withObjectMove (k : String) (sub : BuildProg)
  | asString (v : String)
  | asBool (b : Bool)
  | asInteger (n : Int)
  | asInt64 (n : Int)
  | asDouble (x : JNum)
  | asNull
  | asObjectCopy (sub : BuildProg)

/-- Sequence of builder calls. -/
inductive BuildProg where
  | nil
  | cons (op : BuildOp) (rest : BuildProg)

/-- Sequence of sub-programs, one per array element. -/
inductive BuildList where
  | nil
  | cons (sub : BuildProg) (rest : BuildList)

end

mutual

/-- Runs a builder program on a document. The result is `none` when a call
leaves the domain the spec defines (a keyed mutator on a non-object,
non-null root). -/
def runProg : BuildProg → JsonObject → Option JsonObject
  | .nil, d => some d
  | .cons op rest, d =>
    match runOp op d with
    | some d1 => runProg rest d1
    | none => none

/-- Runs one builder call on a document. -/
def runOp : BuildOp → JsonObject → Option JsonObject
  | .withString k v, d => if RootOk d then some (d.withString k v) else none
  | .withBool k b, d => if RootOk d then some (d.withBool k b) else none
  | .withInteger k n, d => if RootOk d then some (d.withInteger k n) else none
  | .withInt64 k n, d => if RootOk d then some (d.withInt64 k n) else none
  | .withDouble k x, d => if RootOk d then some (d.withDouble k x) else none
  | .withArrayStrings k vs, d => if RootOk d then some (d.withArrayStrings k vs) else none
  | .withArrayCopy k elems, d =>
    if RootOk d then (runElems elems).map (fun docs => (d.withArrayCopy k docs).1) else none
  | .withArrayMove k elems, d =>
    if RootOk d then (runElems elems).map (fun docs => (d.withArrayMove k docs).1) else none
  | .withObjectCopy k sub, d =>
    if RootOk d then (runProg sub JsonObject.empty).map (fun src => (d.withObjectCopy k src).1)
    else none
  | .withObjectMove k sub, d =>
    if RootOk d then (runProg sub JsonObject.empty).map (fun src => (d.withObjectMove k src).1)
    else none
  | .asString v, d => some ((d.asString v).1)
  | .asBool b, d => some ((d.asBool b).1)
  | .asInteger n, d => some ((d.asInteger n).1)
  | .asInt64 n, d => some ((d.asInt64 n).1)
  | .asDouble x, d => some ((d.asDouble x).1)
  | .asNull, d => some ((d.asNull).1)
  | .asObjectCopy sub, d => (runProg sub JsonObject.empty).map (fun src => (d.asObject src).1)

/-- Runs the element sub-programs of an array builder call. -/
def runElems : BuildList → Option (List JsonObject)
  | .nil => some []
  | .cons sub rest =>
    match runProg sub JsonObject.empty, runElems rest with
    | some x, some xs => some (x :: xs)
    | _, _ => none

end


/-- Concrete builder program of the spec scenario. -/
def demoProg : BuildProg :=
  .cons (.withString "name" "a") (.cons (.withInteger "count" 3)
    (.cons (.withArrayStrings "tags" ["x", "y"]) .nil))

/-- Concrete document the scenario builds. -/
def demoDoc : JsonObject :=
  ⟨some (.obj (.cons "name" (.str "a") (.cons "count" (.num ⟨3, 0⟩)
    (.cons "tags" (.arr (itemsOfStrings ["x", "y"])) .nil)))), true, ""⟩



theorem numEq_refl (x : JNum) : numEq x x = true := by
  simp [numEq]

mutual

theorem treeEq_refl : ∀ t : JTree, treeEq t t = true
  | .null => rfl
  | .bool b => by simp [treeEq]
  | .num x => by simp [treeEq, numEq_refl]
  | .str s => by simp [treeEq]
  | .arr l => by simp [treeEq, itemsEq_refl l]
  | .obj fs => by simp [treeEq, fieldsEq_refl fs]

theorem itemsEq_refl : ∀ l : JItems, itemsEq l l = true
  | .nil => rfl
  | .cons t ts => by simp [itemsEq, treeEq_refl t, itemsEq_refl ts]

theorem fieldsEq_refl : ∀ fs : JFields, fieldsEq fs fs = true
  | .nil => rfl
  | .cons k v tl => by simp [fieldsEq, treeEq_refl v, fieldsEq_refl tl]

end

/-- Claim C2. Document equality (operator==) is a structural,
case-sensitive comparison of the two trees, and for every pair of
documents whose roots are both null, equality returns true: the compare is
reflexive on any document, two null-rooted documents compare equal, and
two objects whose keys differ only in case compare unequal. -/
theorem claim2_opEq_structural (d1 d2 : JsonObject) :
    (JsonObject.opEq d1 d1 = true) ∧
    (d1.m_value = none → d2.m_value = none → JsonObject.opEq d1 d2 = true) ∧
    (JsonObject.opEq ⟨some (.obj (.cons "Key" (.str "a") .nil)), true, ""⟩
        ⟨some (.obj (.cons "key" (.str "a") .nil)), true, ""⟩ = false) := by
  refine ⟨?_, ?_, ?_⟩
  · cases h : d1.m_value with
    | none => simp [JsonObject.opEq, rootCompare, h]
    | some t => simp [JsonObject.opEq, rootCompare, h, treeEq_refl]
  · intro h1 h2
    simp [JsonObject.opEq, rootCompare, h1, h2]
  · decide

theorem claim2_witness :
    JsonObject.opEq JsonObject.empty JsonObject.empty = true :=
  (claim2_opEq_structural JsonObject.empty JsonObject.empty).2.1 rfl rfl

/-- Claim C1 (code_bug evidence). The claim states that every AsX mutator,
in particular AsNull, destroys the existing owned tree and replaces the
root with a fresh leaf of kind X. The code of AsNull overwrites the root
WITHOUT calling Destroy: this theorem shows that AsNull hands nothing to
Destroy on any document, that at the failing input (a document holding the
string "x") the root does become the fresh null leaf while nothing is
released, and that the sibling AsString does release the old tree. -/
theorem claim1_asNull_leaks :
    (∀ d : JsonObject, (d.asNull).2 = none) ∧
    ((JsonObject.empty.asString "x").1.asNull.1.m_value = some JTree.null ∧
      (JsonObject.empty.asString "x").1.asNull.2 = none ∧
      ((JsonObject.empty.asString "x").1.asString "y").2 = some (JTree.str "x")) := by
  exact ⟨fun d => rfl, by decide⟩

/-- Claim C3 counterexample. The claim states that AsString on a view
whose node is not a string triggers a fatal assertion and never silently
returns a default. On the concrete non-string node `bool true` the source
returns the empty string with no assertion (the body has no AWS_ASSERT),
while the genuinely asserting accessor AsBool does fail on a wrong type. -/
theorem claim3_counterexample :
    JsonView.asString ⟨some (.bool true)⟩ = Except.ok "" ∧
    JsonView.asString ⟨some (.bool true)⟩ ≠ Except.error () ∧
    JsonView.asBool ⟨some (.str "s")⟩ = Except.error () := by
  refine ⟨rfl, fun h => by simp [JsonView.asString, getStringValue] at h, rfl⟩

/-- Claim C3 as amended. For every view whose referenced node is not a
string (or is unbound), AsString silently returns the empty string and
never triggers an assertion. -/
theorem claim3_amended (v : JsonView) (h : v.isString = false) :
    v.asString = Except.ok "" := by
  cases hv : v.m_value with
  | none => simp [JsonView.asString, getStringValue, hv]
  | some t =>
    cases t with
    | str s => simp [JsonView.isString, hv] at h
    | null | bool _ | num _ | arr _ | obj _ => simp [JsonView.asString, getStringValue, hv]

theorem claim3_amended_witness :
    JsonView.asString ⟨some (.bool true)⟩ = Except.ok "" :=
  claim3_amended ⟨some (.bool true)⟩ (by decide)

/-- Claim C9. For every view over an object node and every key with no
child of that name, GetJsonObject does not assert-fail: it returns an
unbound view (null node reference) on which every type predicate
(IsObject, IsBool, IsString, IsListType, IsNull) returns false. -/
theorem claim9_missing_key (fs : JFields) (k : String)
    (h : getObjectItemCS fs k = none) :
    JsonView.getJsonObject ⟨some (.obj fs)⟩ k = Except.ok ⟨none⟩ ∧
    JsonView.isObject ⟨none⟩ = false ∧ JsonView.isBool ⟨none⟩ = false ∧
    JsonView.isString ⟨none⟩ = false ∧ JsonView.isListType ⟨none⟩ = false ∧
    JsonView.isNull ⟨none⟩ = false := by
  refine ⟨?_, rfl, rfl, rfl, rfl, rfl⟩
  simp [JsonView.getJsonObject, h]

theorem claim9_witness :
    JsonView.getJsonObject ⟨some (.obj (.cons "a" .null .nil))⟩ "b" = Except.ok ⟨none⟩ :=
  (claim9_missing_key (.cons "a" .null .nil) "b" (by decide)).1

/-- Claim C10. Unlike the other As mutators, AsObject in its copy form is
full copy assignment: besides replacing the tree it also overwrites the
parse flag and the error message of the target with those of the source
(AsString, as a representative sibling, keeps both); concretely, a
document with a cleared parse flag regains a set flag and an empty message
after AsObject from a successfully constructed source. -/
theorem claim10_asObject_full_copy :
    (∀ (d src : JsonObject) (v : String),
      ((d.asObject src).1.m_value = src.m_value ∧
        (d.asObject src).1.m_wasParseSuccessful = src.m_wasParseSuccessful ∧
        (d.asObject src).1.m_errorMessage = src.m_errorMessage) ∧
      ((d.asString v).1.m_wasParseSuccessful = d.m_wasParseSuccessful ∧
        (d.asString v).1.m_errorMessage = d.m_errorMessage)) ∧
    ((JsonObject.asObject ⟨none, false, "Failed to parse JSON at: "⟩
        ⟨some (.obj .nil), true, ""⟩).1.m_wasParseSuccessful = true ∧
      (JsonObject.asObject ⟨none, false, "Failed to parse JSON at: "⟩
        ⟨some (.obj .nil), true, ""⟩).1.m_errorMessage = "") :=
  ⟨fun d src v => ⟨⟨rfl, rfl, rfl⟩, ⟨rfl, rfl⟩⟩, ⟨rfl, rfl⟩⟩

theorem fieldsIndOn (P : JFields → Prop) (hnil : P .nil)
    (hcons : ∀ k v tl, P tl → P (.cons k v tl)) : ∀ fs, P fs
  | .nil => hnil
  | .cons k v tl => hcons k v tl (fieldsIndOn P hnil hcons tl)

theorem itemsIndOn (P : JItems → Prop) (hnil : P .nil)
    (hcons : ∀ t tl, P tl → P (.cons t tl)) : ∀ l, P l
  | .nil => hnil
  | .cons t tl => hcons t tl (itemsIndOn P hnil hcons tl)

theorem getObjectItemCS_replaceItemCS (fs : JFields) (k : String) (v w : JTree)
    (h : getObjectItemCS fs k = some w) :
    getObjectItemCS (replaceItemCS fs k v) k = some v := by
  induction fs using fieldsIndOn with
  | hnil => simp [getObjectItemCS] at h
  | hcons k0 v0 tl ih =>
    by_cases hk : k0 = k
    · simp [replaceItemCS, hk, getObjectItemCS]
    · simp [getObjectItemCS, hk] at h
      simp [replaceItemCS, hk, getObjectItemCS, ih h]

theorem getObjectItemCS_addItemToObject (fs : JFields) (k : String) (v : JTree)
    (h : getObjectItemCS fs k = none) :
    getObjectItemCS (addItemToObject fs k v) k = some v := by
  induction fs using fieldsIndOn with
  | hnil => simp [addItemToObject, getObjectItemCS]
  | hcons k0 v0 tl ih =>
    by_cases hk : k0 = k
    · simp [getObjectItemCS, hk] at h
    · simp [getObjectItemCS, hk] at h
      simp [addItemToObject, getObjectItemCS, hk, ih h]

theorem getObjectItemCS_addOrReplace (fs : JFields) (k : String) (v : JTree) :
    getObjectItemCS (addOrReplace fs k v) k = some v := by
  unfold addOrReplace
  cases h : getObjectItemCS fs k with
  | some w => exact getObjectItemCS_replaceItemCS fs k v w h
  | none => exact getObjectItemCS_addItemToObject fs k v h

theorem withValue_lookup (d : JsonObject) (key : String) (v : JTree) (h : RootOk d) :
    ∃ fs, (d.withValue key v).m_value = some (.obj fs) ∧
      getObjectItemCS fs key = some v := by
  unfold RootOk at h
  cases hv : d.m_value with
  | none =>
    exact ⟨addOrReplace .nil key v, by simp [JsonObject.withValue, hv],
      getObjectItemCS_addOrReplace .nil key v⟩
  | some t =>
    cases t with
    | obj fs0 =>
      exact ⟨addOrReplace fs0 key v, by simp [JsonObject.withValue, hv],
        getObjectItemCS_addOrReplace fs0 key v⟩
    | null | bool _ | num _ | str _ | arr _ => simp [hv] at h

/-- Claim C5. After the move overload of WithArray every element of the
argument vector has a null root; after the copy overload every element is
unchanged; both overloads build the same array child (the copy form from
duplicates, so the array is independent of the sources in the pure
model), placed under the key. -/
theorem claim5_withArray_move_vs_copy (d : JsonObject) (key : String)
    (docs : List JsonObject) (h : RootOk d) :
    (∀ x ∈ (d.withArrayMove key docs).2, x.m_value = none) ∧
    ((d.withArrayCopy key docs).2 = docs) ∧
    ((d.withArrayCopy key docs).1 = (d.withArrayMove key docs).1) ∧
    (∃ fs, (d.withArrayCopy key docs).1.m_value = some (.obj fs) ∧
      getObjectItemCS fs key = some (.arr (collectTrees docs))) := by
  refine ⟨?_, rfl, rfl, ?_⟩
  · intro x hx
    simp [JsonObject.withArrayMove] at hx
    obtain ⟨y, _, hy⟩ := hx
    exact hy ▸ rfl
  · exact withValue_lookup d key (.arr (collectTrees docs)) h

theorem claim5_witness :
    (∀ x ∈ (JsonObject.empty.withArrayMove "k"
        [JsonObject.empty.asBool true |>.1]).2, x.m_value = none) ∧
    (JsonObject.empty.withArrayCopy "k" [JsonObject.empty.asBool true |>.1]).2 =
      [JsonObject.empty.asBool true |>.1] :=
  ⟨(claim5_withArray_move_vs_copy JsonObject.empty "k" _ trivial).1,
   (claim5_withArray_move_vs_copy JsonObject.empty "k" _ trivial).2.1⟩

/-- Claim C8. WithObject in both copy and move form inserts the source
tree as the child under the key, normalizing a null source root to an
empty object node (never a null child); the copy form leaves the source
untouched while the move form leaves the source with a null root. -/
theorem claim8_withObject (d : JsonObject) (key : String) (src : JsonObject) (h : RootOk d) :
    (∃ fs, (d.withObjectCopy key src).1.m_value = some (.obj fs) ∧
      getObjectItemCS fs key = some ((src.m_value).getD (.obj .nil))) ∧
    ((d.withObjectMove key src).1 = (d.withObjectCopy key src).1) ∧
    ((d.withObjectCopy key src).2 = src) ∧
    ((d.withObjectMove key src).2.m_value = none) ∧
    (src.m_value = none → (src.m_value).getD (.obj .nil) = .obj .nil) := by
  refine ⟨withValue_lookup d key _ h, rfl, rfl, rfl, fun hn => by simp [hn]⟩

theorem claim8_witness :
    ∃ fs, (JsonObject.empty.withObjectCopy "k" JsonObject.empty).1.m_value = some (.obj fs) ∧
      getObjectItemCS fs "k" = some (.obj .nil) :=
  (claim8_withObject JsonObject.empty "k" JsonObject.empty trivial).1

theorem getObjectItemCS_isSome_iff (fs : JFields) (k : String) :
    (getObjectItemCS fs k).isSome = true ↔ ∃ t, (k, t) ∈ fieldsToList fs := by
  induction fs using fieldsIndOn with
  | hnil => simp [getObjectItemCS, fieldsToList]
  | hcons k0 v0 tl ih =>
    by_cases hk : k0 = k
    · subst hk
      simp [getObjectItemCS, fieldsToList]
    · simp only [getObjectItemCS, if_neg hk, fieldsToList, List.mem_cons, ih]
      constructor
      · rintro ⟨t, ht⟩
        exact ⟨t, Or.inr ht⟩
      · rintro ⟨t, (he | ht)⟩
        · exact absurd (congrArg Prod.fst he).symm hk
        · exact ⟨t, ht⟩

theorem getObjectItemCS_mem (fs : JFields) (k : String) (t : JTree)
    (h : getObjectItemCS fs k = some t) : (k, t) ∈ fieldsToList fs := by
  induction fs using fieldsIndOn with
  | hnil => simp [getObjectItemCS] at h
  | hcons k0 v0 tl ih =>
    by_cases hk : k0 = k
    · subst hk
      simp [getObjectItemCS] at h
      simp [fieldsToList, h]
    · simp [getObjectItemCS, hk] at h
      simp [fieldsToList, ih h]

theorem mem_keys_of_mem (fs : JFields) (k : String) (t : JTree)
    (h : (k, t) ∈ fieldsToList fs) : k ∈ fieldsKeys fs := by
  induction fs using fieldsIndOn with
  | hnil => simp [fieldsToList] at h
  | hcons k0 v0 tl ih =>
    simp [fieldsToList] at h
    rcases h with ⟨he, _⟩ | hm
    · simp [fieldsKeys, he]
    · simp [fieldsKeys, ih hm]

theorem getObjectItemCS_of_mem_nodup (fs : JFields) (k : String) (t : JTree)
    (hnd : (fieldsKeys fs).Nodup) (h : (k, t) ∈ fieldsToList fs) :
    getObjectItemCS fs k = some t := by
  induction fs using fieldsIndOn with
  | hnil => simp [fieldsToList] at h
  | hcons k0 v0 tl ih =>
    simp [fieldsKeys] at hnd
    simp [fieldsToList] at h
    rcases h with ⟨he, hv⟩ | hm
    · simp [getObjectItemCS, he.symm, hv]
    · have hk : k0 ≠ k := fun he0 => hnd.1 (he0 ▸ mem_keys_of_mem tl k t hm)
      simp [getObjectItemCS, hk, ih hnd.2 hm]

/-- Claim C7. For every view over an object node and every key:
KeyExists is true iff a child of that name exists (a JSON null child
included), and ValueExists is true iff a child of that name exists whose
value is not JSON null; concretely, for an object holding only the child
"a" with value null, KeyExists "a" is true and ValueExists "a" is false,
and on the empty object both are false. -/
theorem claim7_keyExists_valueExists (fs : JFields) (k : String)
    (hnd : (fieldsKeys fs).Nodup) :
    (JsonView.keyExists ⟨some (.obj fs)⟩ k = true ↔ ∃ t, (k, t) ∈ fieldsToList fs) ∧
    (JsonView.valueExists ⟨some (.obj fs)⟩ k = true ↔
      ∃ t, (k, t) ∈ fieldsToList fs ∧ t ≠ JTree.null) ∧
    (JsonView.keyExists ⟨some (.obj (.cons "a" .null .nil))⟩ "a" = true) ∧
    (JsonView.valueExists ⟨some (.obj (.cons "a" .null .nil))⟩ "a" = false) ∧
    (JsonView.keyExists ⟨some (.obj .nil)⟩ "a" = false) ∧
    (JsonView.valueExists ⟨some (.obj .nil)⟩ "a" = false) := by
  refine ⟨?_, ?_, by decide, by decide, by decide, by decide⟩
  · simpa [JsonView.keyExists] using getObjectItemCS_isSome_iff fs k
  · constructor
    · intro h
      simp only [JsonView.valueExists] at h
      cases hl : getObjectItemCS fs k with
      | none => simp [hl] at h
      | some t0 =>
        refine ⟨t0, getObjectItemCS_mem fs k t0 hl, ?_⟩
        rw [hl] at h
        cases t0 <;> simp_all
    · rintro ⟨t, hm, hne⟩
      have hl := getObjectItemCS_of_mem_nodup fs k t hnd hm
      simp only [JsonView.valueExists, hl]
      cases t <;> simp_all

theorem claim7_witness :
    JsonView.keyExists ⟨some (.obj (.cons "a" .null .nil))⟩ "a" = true ∧
    JsonView.valueExists ⟨some (.obj (.cons "a" .null .nil))⟩ "a" = false :=
  ⟨(claim7_keyExists_valueExists (.cons "a" .null .nil) "a" (by decide)).2.2.1,
   (claim7_keyExists_valueExists (.cons "a" .null .nil) "a" (by decide)).2.2.2.1⟩

theorem fieldsKeys_replaceItemCS (fs : JFields) (k : String) (v : JTree) :
    fieldsKeys (replaceItemCS fs k v) = fieldsKeys fs := by
  induction fs using fieldsIndOn with
  | hnil => rfl
  | hcons k0 v0 tl ih =>
    by_cases hk : k0 = k
    · simp [replaceItemCS, hk, fieldsKeys]
    · simp [replaceItemCS, hk, fieldsKeys, ih]

theorem fieldsKeys_addItemToObject (fs : JFields) (k : String) (v : JTree) :
    fieldsKeys (addItemToObject fs k v) = fieldsKeys fs ++ [k] := by
  induction fs using fieldsIndOn with
  | hnil => rfl
  | hcons k0 v0 tl ih => simp [addItemToObject, fieldsKeys, ih]

theorem getObjectItemCS_none_iff (fs : JFields) (k : String) :
    getObjectItemCS fs k = none ↔ k ∉ fieldsKeys fs := by
  induction fs using fieldsIndOn with
  | hnil => simp [getObjectItemCS, fieldsKeys]
  | hcons k0 v0 tl ih =>
    by_cases hk : k0 = k
    · simp [getObjectItemCS, hk, fieldsKeys]
    · simp only [getObjectItemCS, if_neg hk, fieldsKeys, List.mem_cons, ih]
      constructor
      · intro hn hor
        rcases hor with he | hm
        · exact hk he.symm
        · exact hn hm
      · intro hn hm
        exact hn (Or.inr hm)

theorem fieldsKeys_addOrReplace (fs : JFields) (k : String) (v : JTree) :
    fieldsKeys (addOrReplace fs k v) =
      if k ∈ fieldsKeys fs then fieldsKeys fs else fieldsKeys fs ++ [k] := by
  unfold addOrReplace
  cases h : getObjectItemCS fs k with
  | some w =>
    have hm : k ∈ fieldsKeys fs := by
      by_contra hn
      rw [(getObjectItemCS_none_iff fs k).mpr hn] at h
      exact Option.noConfusion h
    simp [fieldsKeys_replaceItemCS, hm]
  | none =>
    have hn : k ∉ fieldsKeys fs := (getObjectItemCS_none_iff fs k).mp h
    simp [fieldsKeys_addItemToObject, hn]

theorem addOrReplace_found (fs : JFields) (k : String) (v w : JTree)
    (h : getObjectItemCS fs k = some w) : addOrReplace fs k v = replaceItemCS fs k v := by
  unfold addOrReplace
  rw [h]

theorem count_addOrReplace (fs : JFields) (k : String) (v : JTree)
    (hnd : (fieldsKeys fs).Nodup) :
    (fieldsKeys (addOrReplace fs k v)).count k = 1 := by
  rw [fieldsKeys_addOrReplace]
  by_cases hm : k ∈ fieldsKeys fs
  · have h1 : 0 < (fieldsKeys fs).count k := List.count_pos_iff.mpr hm
    have h2 : (fieldsKeys fs).count k ≤ 1 := List.nodup_iff_count_le_one.mp hnd k
    simp [hm]
    omega
  · have h0 : (fieldsKeys fs).count k = 0 := List.count_eq_zero.mpr hm
    simp [hm, List.count_append, h0]

/-- Claim C4. For every document with a null or object root and unique
child names (the invariant of the data model), every key and all values
v1, v2: WithString of v1 then of v2 yields an object root with exactly
one child of that name, holding v2, at the same position in the child
order as after the original insertion. -/
theorem claim4_idempotent_replace (d : JsonObject) (k v1 v2 : String)
    (h : RootOk d) (hnd : KeysNodup d) :
    ∃ fs1 fs2,
      ((d.withString k v1).m_value = some (.obj fs1)) ∧
      (((d.withString k v1).withString k v2).m_value = some (.obj fs2)) ∧
      ((fieldsKeys fs2).count k = 1) ∧
      (getObjectItemCS fs2 k = some (.str v2)) ∧
      ((fieldsKeys fs2).indexOf k = (fieldsKeys fs1).indexOf k) := by
  unfold RootOk at h
  unfold KeysNodup at hnd
  have main : ∀ fs0 : JFields, (fieldsKeys fs0).Nodup →
      ∃ fs1 fs2,
        addOrReplace fs0 k (.str v1) = fs1 ∧
        addOrReplace fs1 k (.str v2) = fs2 ∧
        ((fieldsKeys fs2).count k = 1) ∧
        (getObjectItemCS fs2 k = some (.str v2)) ∧
        ((fieldsKeys fs2).indexOf k = (fieldsKeys fs1).indexOf k) := by
    intro fs0 hnd0
    refine ⟨addOrReplace fs0 k (.str v1), addOrReplace (addOrReplace fs0 k (.str v1)) k (.str v2),
      rfl, rfl, ?_, getObjectItemCS_addOrReplace _ k _, ?_⟩
    · have hfound := getObjectItemCS_addOrReplace fs0 k (JTree.str v1)
      have hkeys1 := fieldsKeys_addOrReplace fs0 k (JTree.str v1)
      have hnd1 : (fieldsKeys (addOrReplace fs0 k (.str v1))).Nodup := by
        rw [hkeys1]
        by_cases hm : k ∈ fieldsKeys fs0
        · simpa [hm] using hnd0
        · rw [if_neg hm, List.nodup_append]
          refine ⟨hnd0, List.nodup_singleton k, ?_⟩
          intro x hx hx2
          simp at hx2
          subst hx2
          exact hm hx
      exact count_addOrReplace _ k _ hnd1
    · have hfound := getObjectItemCS_addOrReplace fs0 k (JTree.str v1)
      rw [addOrReplace_found _ _ _ _ hfound, fieldsKeys_replaceItemCS]
  cases hv : d.m_value with
  | none =>
    obtain ⟨fs1, fs2, h1, h2, h3, h4, h5⟩ := main .nil (by simp [fieldsKeys])
    refine ⟨fs1, fs2, ?_, ?_, h3, h4, h5⟩
    · simp [JsonObject.withString, JsonObject.withValue, hv, h1]
    · simp [JsonObject.withString, JsonObject.withValue, hv, h1, h2]
  | some t =>
    cases t with
    | obj fs0 =>
      rw [hv] at hnd
      obtain ⟨fs1, fs2, h1, h2, h3, h4, h5⟩ := main fs0 hnd
      refine ⟨fs1, fs2, ?_, ?_, h3, h4, h5⟩
      · simp [JsonObject.withString, JsonObject.withValue, hv, h1]
      · simp [JsonObject.withString, JsonObject.withValue, hv, h1, h2]
    | null | bool _ | num _ | str _ | arr _ => simp [hv] at h

theorem claim4_witness :
    ∃ fs1 fs2,
      ((JsonObject.empty.withString "k" "v1").m_value = some (.obj fs1)) ∧
      (((JsonObject.empty.withString "k" "v1").withString "k" "v2").m_value = some (.obj fs2)) ∧
      ((fieldsKeys fs2).count "k" = 1) ∧
      (getObjectItemCS fs2 "k" = some (.str "v2")) ∧
      ((fieldsKeys fs2).indexOf "k" = (fieldsKeys fs1).indexOf "k") :=
  claim4_idempotent_replace JsonObject.empty "k" "v1" "v2" trivial trivial

theorem hexVal_hexDigitChar (n : Nat) (h : n < 16) : hexVal (hexDigitChar n) = some n := by
  interval_cases n <;> decide

theorem parseStrBody_escList : ∀ (l : List Char) (rest : List Char),
    parseStrBody (escList l ++ '"' :: rest) = some (l, rest)
  | [], rest => by
    rw [show escList [] ++ '"' :: rest = '"' :: rest from rfl, parseStrBody.eq_def]
    simp
  | c :: tl, rest => by
    have ih := parseStrBody_escList tl rest
    by_cases h1 : c = '"'
    · subst h1
      rw [show escList ('"' :: tl) ++ '"' :: rest =
            '\\' :: '"' :: (escList tl ++ '"' :: rest) from by simp [escList, escChar],
          parseStrBody.eq_def]
      simp [consFst, ih]
    by_cases h2 : c = '\\'
    · subst h2
      rw [show escList ('\\' :: tl) ++ '"' :: rest =
            '\\' :: '\\' :: (escList tl ++ '"' :: rest) from by simp [escList, escChar],
          parseStrBody.eq_def]
      simp [consFst, ih]
    by_cases h3 : c = Char.ofNat 8
    · subst h3
      rw [show escList (Char.ofNat 8 :: tl) ++ '"' :: rest =
            '\\' :: 'b' :: (escList tl ++ '"' :: rest) from by simp [escList, escChar],
          parseStrBody.eq_def]
      simp [consFst, ih]
    by_cases h4 : c = Char.ofNat 12
    · subst h4
      rw [show escList (Char.ofNat 12 :: tl) ++ '"' :: rest =
            '\\' :: 'f' :: (escList tl ++ '"' :: rest) from by simp [escList, escChar],
          parseStrBody.eq_def]
      simp [consFst, ih]
    by_cases h5 : c = '\n'
    · subst h5
      rw [show escList ('\n' :: tl) ++ '"' :: rest =
            '\\' :: 'n' :: (escList tl ++ '"' :: rest) from by simp [escList, escChar],
          parseStrBody.eq_def]
      simp [consFst, ih]
    by_cases h6 : c = '\r'
    · subst h6
      rw [show escList ('\r' :: tl) ++ '"' :: rest =
            '\\' :: 'r' :: (escList tl ++ '"' :: rest) from by simp [escList, escChar],
          parseStrBody.eq_def]
      simp [consFst, ih]
    by_cases h7 : c = '\t'
    · subst h7
      rw [show escList ('\t' :: tl) ++ '"' :: rest =
            '\\' :: 't' :: (escList tl ++ '"' :: rest) from by simp [escList, escChar],
          parseStrBody.eq_def]
      simp [consFst, ih]
    by_cases h8 : c.toNat < 32
    · rw [show escList (c :: tl) ++ '"' :: rest =
            '\\' :: 'u' :: '0' :: '0' :: hexDigitChar (c.toNat / 16) ::
              hexDigitChar (c.toNat % 16) :: (escList tl ++ '"' :: rest) from by
              simp [escList, escChar, h1, h2, h3, h4, h5, h6, h7, h8],
          parseStrBody.eq_def]
      have hx1 := hexVal_hexDigitChar (c.toNat / 16) (by omega)
      have hx2 := hexVal_hexDigitChar (c.toNat % 16) (by omega)
      have h0 : hexVal '0' = some 0 := by decide
      simp only [reduceIte, h0, hx1, hx2]
      have hcode : ((0 * 16 + 0) * 16 + c.toNat / 16) * 16 + c.toNat % 16 = c.toNat := by
        omega
      have hlt : c.toNat < 55296 := by omega
      simp [hcode, hlt, Char.ofNat_toNat, consFst, ih]
      have hcode2 : c.toNat / 16 * 16 + c.toNat % 16 = c.toNat := by omega
      rw [hcode2]
      exact ⟨by omega, Char.ofNat_toNat c⟩
    · rw [show escList (c :: tl) ++ '"' :: rest = c :: (escList tl ++ '"' :: rest) from by
            simp [escList, escChar, h1, h2, h3, h4, h5, h6, h7, h8],
          parseStrBody.eq_def]
      simp [h1, h2, consFst, ih]

theorem decDigit_isDigit (d : Nat) (h : d < 10) : (decDigit d).isDigit = true := by
  interval_cases d <;> decide

theorem digitVal_decDigit (d : Nat) (h : d < 10) : digitVal (decDigit d) = d := by
  interval_cases d <;> decide

theorem isDigit_ne_dash (c : Char) (h : c.isDigit = true) : c ≠ '-' := by
  intro he
  subst he
  simp [Char.isDigit] at h

theorem parseDigits_spec (ds : List Char) (rest : List Char) (acc : Nat)
    (hds : ∀ c ∈ ds, c.isDigit = true) (hrest : notDigitHead rest = true) :
    parseDigits acc (ds ++ rest) = (valD acc ds, ds.length, rest) := by
  induction ds generalizing acc with
  | nil =>
    cases rest with
    | nil => simp [parseDigits, valD]
    | cons c cs =>
      simp only [notDigitHead, Bool.not_eq_eq_eq_not, Bool.not_true] at hrest
      simp [parseDigits, valD, hrest]
  | cons c cs ih =>
    have hc : c.isDigit = true := hds c (by simp)
    have ihr := ih (acc * 10 + digitVal c) (fun d hd => hds d (by simp [hd]))
    simp [parseDigits, hc, ihr, valD]

theorem mem_natDigitChars_isDigit (k : Nat) (c : Char) (h : c ∈ natDigitChars k) :
    c.isDigit = true := by
  simp only [natDigitChars, List.mem_map, List.mem_reverse] at h
  obtain ⟨d, hd, he⟩ := h
  have := Nat.digits_lt_base (by norm_num) hd
  exact he ▸ decDigit_isDigit d this

theorem mem_natPadded_isDigit (k w : Nat) (c : Char) (h : c ∈ natPadded k w) :
    c.isDigit = true := by
  simp only [natPadded, List.mem_append] at h
  rcases h with h | h
  · rw [List.eq_of_mem_replicate h]
    decide
  · exact mem_natDigitChars_isDigit k c h

theorem foldr_ofDigits (L : List Nat) :
    L.foldr (fun d a => a * 10 + d) 0 = Nat.ofDigits 10 L := by
  induction L with
  | nil => simp [Nat.ofDigits]
  | cons d L ih => simp [List.foldr_cons, ih, Nat.ofDigits_cons]; ring

theorem foldl_digitVal_decDigit (L : List Nat) (a : Nat) (h : ∀ d ∈ L, d < 10) :
    L.foldl (fun a d => a * 10 + digitVal (decDigit d)) a =
      L.foldl (fun a d => a * 10 + d) a := by
  induction L generalizing a with
  | nil => rfl
  | cons d L ih =>
    have hd := h d (by simp)
    simp only [List.foldl_cons, digitVal_decDigit d hd]
    exact ih _ (fun x hx => h x (by simp [hx]))

theorem valD_natDigitChars (k : Nat) : valD 0 (natDigitChars k) = k := by
  unfold valD natDigitChars
  rw [List.foldl_map]
  rw [foldl_digitVal_decDigit _ _ (fun d hd => Nat.digits_lt_base (by norm_num)
    (List.mem_reverse.mp hd))]
  rw [List.foldl_reverse]
  have : (Nat.digits 10 k).foldr (fun x y => y * 10 + x) 0 =
      (Nat.digits 10 k).foldr (fun d a => a * 10 + d) 0 := rfl
  rw [this, foldr_ofDigits, Nat.ofDigits_digits]

theorem valD_replicate_zero (p : Nat) : valD 0 (List.replicate p '0') = 0 := by
  induction p with
  | zero => rfl
  | succ n ih =>
    simp only [List.replicate_succ, valD, List.foldl_cons]
    have h0 : digitVal '0' = 0 := by decide
    simpa [valD, h0] using ih

theorem valD_append (a b : List Char) (acc : Nat) :
    valD acc (a ++ b) = valD (valD acc a) b := by
  simp [valD, List.foldl_append]

theorem valD_shift (ds : List Char) (acc : Nat) :
    valD acc ds = acc * 10 ^ ds.length + valD 0 ds := by
  induction ds generalizing acc with
  | nil => simp [valD]
  | cons c cs ih =>
    have h1 : valD acc (c :: cs) = valD (acc * 10 + digitVal c) cs := by
      simp [valD]
    have h2 : valD 0 (c :: cs) = valD (digitVal c) cs := by
      simp [valD]
    rw [h1, h2, ih (acc * 10 + digitVal c), ih (digitVal c)]
    simp [List.length_cons]
    ring

theorem valD_natPadded (k w : Nat) : valD 0 (natPadded k w) = k := by
  unfold natPadded
  rw [valD_append, valD_replicate_zero, valD_natDigitChars]

theorem natPadded_length (k w : Nat) : w ≤ (natPadded k w).length := by
  simp [natPadded, List.length_append, List.length_replicate]
  omega

theorem numStop_notDigit (rest : List Char) (h : numStop rest = true) :
    notDigitHead rest = true := by
  cases rest with
  | nil => rfl
  | cons c cs =>
    simp only [numStop, Bool.and_eq_true] at h
    simp [notDigitHead, h.1]

theorem numStop_headIs_dot (rest : List Char) (h : numStop rest = true) :
    headIs '.' rest = false := by
  cases rest with
  | nil => rfl
  | cons c cs =>
    simp only [numStop, Bool.and_eq_true, Bool.not_eq_eq_eq_not, Bool.not_true,
      decide_eq_false_iff_not] at h
    simp [headIs, h.2]

theorem natPadded_ne_nil (k w : Nat) (hw : 0 < w) : natPadded k w ≠ [] := by
  intro h
  have hlen := natPadded_length k w
  rw [h] at hlen
  simp at hlen
  omega

theorem parseNumAbs_int (k w : Nat) (rest : List Char) (hw : 0 < w)
    (hrest : numStop rest = true) :
    parseNumAbs (natPadded k w ++ rest) = some (k, 0, rest) := by
  obtain ⟨d0, D1, hD⟩ : ∃ d0 D1, natPadded k w = d0 :: D1 := by
    cases hD : natPadded k w with
    | nil => exact absurd hD (natPadded_ne_nil k w hw)
    | cons a b => exact ⟨a, b, rfl⟩
  have hd0 : d0.isDigit = true :=
    mem_natPadded_isDigit k w d0 (by rw [hD]; simp)
  have hpd := parseDigits_spec (natPadded k w) rest 0 (mem_natPadded_isDigit k w)
    (numStop_notDigit rest hrest)
  rw [parseNumAbs.eq_def]
  simp only [hD, List.cons_append] at hpd ⊢
  simp only [hd0, if_true, hpd, numStop_headIs_dot rest hrest]
  have hv : valD 0 (d0 :: D1) = k := by
    rw [← hD]
    exact valD_natPadded k w
  simp [hv]

theorem parseNum_print_int (x : JNum) (rest : List Char) (he : x.e = 0)
    (hrest : numStop rest = true) :
    parseNum (printNum x ++ rest) = some (x, rest) := by
  have hcore := parseNumAbs_int x.m.natAbs (x.e + 1) rest (by omega) hrest
  by_cases hm : x.m < 0
  · have hp : printNum x ++ rest = '-' :: (natPadded x.m.natAbs (x.e + 1) ++ rest) := by
      simp [printNum, he, hm]
    rw [hp, parseNum]
    simp only [headIs, decide_True, reduceIte, List.tail_cons, hcore, Option.map]
    have hx : signedOf true x.m.natAbs = x.m := by
      simp only [signedOf, reduceIte]
      omega
    have hxx : (⟨signedOf true x.m.natAbs, 0⟩ : JNum) = x := by
      rw [hx]
      cases x
      simp_all
    rw [hxx]
  · obtain ⟨d0, D1, hD⟩ : ∃ d0 D1, natPadded x.m.natAbs (x.e + 1) = d0 :: D1 := by
      cases hD : natPadded x.m.natAbs (x.e + 1) with
      | nil => exact absurd hD (natPadded_ne_nil _ _ (by omega))
      | cons a b => exact ⟨a, b, rfl⟩
    have hd0 : d0.isDigit = true :=
      mem_natPadded_isDigit _ _ d0 (by rw [hD]; simp)
    have hp : printNum x ++ rest = natPadded x.m.natAbs (x.e + 1) ++ rest := by
      simp [printNum, he, hm]
    rw [hp, parseNum]
    simp only [hD, List.cons_append, headIs]
    have hne : (d0 = '-') = False := by
      simp [isDigit_ne_dash d0 hd0]
    simp only [hne, decide_False, Bool.false_eq_true, reduceIte]
    rw [← List.cons_append, ← hD, hcore]
    simp only [Option.map]
    have hx : signedOf false x.m.natAbs = x.m := by
      simp only [signedOf, Bool.false_eq_true, reduceIte]
      omega
    have hxx : (⟨signedOf false x.m.natAbs, 0⟩ : JNum) = x := by
      rw [hx]
      cases x
      simp_all
    rw [hxx]

theorem valD_take_drop (D : List Char) (n : Nat) :
    valD 0 D = valD 0 (D.take n) * 10 ^ (D.drop n).length + valD 0 (D.drop n) := by
  conv_lhs => rw [← List.take_append_drop n D]
  rw [valD_append, valD_shift]

theorem parseNumAbs_frac (k e : Nat) (rest : List Char) (he : 0 < e)
    (hrest : numStop rest = true) :
    parseNumAbs ((natPadded k (e + 1)).take ((natPadded k (e + 1)).length - e) ++
      '.' :: ((natPadded k (e + 1)).drop ((natPadded k (e + 1)).length - e) ++ rest)) =
      some (k, e, rest) := by
  set D := natPadded k (e + 1) with hDdef
  have hL : e + 1 ≤ D.length := natPadded_length k (e + 1)
  set A := D.take (D.length - e) with hAdef
  set B := D.drop (D.length - e) with hBdef
  have hAlen : A.length = D.length - e := by
    simp [hAdef, List.length_take]
  have hBlen : B.length = e := by
    simp [hBdef, List.length_drop]
    omega
  have hAdig : ∀ c ∈ A, c.isDigit = true := fun c hc =>
    mem_natPadded_isDigit k (e + 1) c (List.take_subset _ _ hc)
  have hBdig : ∀ c ∈ B, c.isDigit = true := fun c hc =>
    mem_natPadded_isDigit k (e + 1) c (List.drop_subset _ _ hc)
  have hval : valD 0 A * 10 ^ e + valD 0 B = k := by
    have := valD_take_drop D (D.length - e)
    rw [← hAdef, ← hBdef, hBlen] at this
    rw [← this, hDdef, valD_natPadded]
  obtain ⟨a0, A1, hA⟩ : ∃ a0 A1, A = a0 :: A1 :=
    List.exists_cons_of_ne_nil (List.ne_nil_of_length_pos (by omega))
  obtain ⟨b0, B1, hB⟩ : ∃ b0 B1, B = b0 :: B1 :=
    List.exists_cons_of_ne_nil (List.ne_nil_of_length_pos (by omega))
  have ha0 : a0.isDigit = true := hAdig a0 (by rw [hA]; simp)
  have hb0 : b0.isDigit = true := hBdig b0 (by rw [hB]; simp)
  have hpdA := parseDigits_spec A ('.' :: (B ++ rest)) 0 hAdig rfl
  have hpdB := parseDigits_spec B rest 0 hBdig (numStop_notDigit rest hrest)
  rw [parseNumAbs.eq_def]
  simp only [hA, List.cons_append] at hpdA ⊢
  simp only [ha0, if_true, hpdA, headIs, List.tail_cons, decide_True, reduceIte]
  simp only [hB, List.cons_append] at hpdB ⊢
  simp only [hb0, if_true, hpdB]
  have hvA : valD 0 (a0 :: A1) = valD 0 A := by rw [hA]
  have hvB : valD 0 (b0 :: B1) = valD 0 B := by rw [hB]
  have hBl : (b0 :: B1).length = e := by rw [← hB, hBlen]
  simp only [hvA, hvB, hBl, hval]

theorem parseNum_print_frac (x : JNum) (rest : List Char) (he : 0 < x.e)
    (hrest : numStop rest = true) :
    parseNum (printNum x ++ rest) = some (x, rest) := by
  have hene : x.e ≠ 0 := by omega
  have hcore := parseNumAbs_frac x.m.natAbs x.e rest he hrest
  have hassoc : ∀ s : List Char,
      (s ++ ((natPadded x.m.natAbs (x.e + 1)).take ((natPadded x.m.natAbs (x.e + 1)).length - x.e) ++
        '.' :: (natPadded x.m.natAbs (x.e + 1)).drop ((natPadded x.m.natAbs (x.e + 1)).length - x.e))) ++ rest =
      s ++ ((natPadded x.m.natAbs (x.e + 1)).take ((natPadded x.m.natAbs (x.e + 1)).length - x.e) ++
        '.' :: ((natPadded x.m.natAbs (x.e + 1)).drop ((natPadded x.m.natAbs (x.e + 1)).length - x.e) ++ rest)) := by
    intro s
    simp [List.append_assoc]
  by_cases hm : x.m < 0
  · have hp : printNum x ++ rest =
        '-' :: ((natPadded x.m.natAbs (x.e + 1)).take ((natPadded x.m.natAbs (x.e + 1)).length - x.e) ++
          '.' :: ((natPadded x.m.natAbs (x.e + 1)).drop ((natPadded x.m.natAbs (x.e + 1)).length - x.e) ++ rest)) := by
      rw [printNum]
      simp only [hene, if_false, hm, if_true, reduceIte]
      simpa using hassoc ['-']
    rw [hp, parseNum]
    simp only [headIs, decide_True, reduceIte, List.tail_cons, hcore, Option.map]
    have hx : signedOf true x.m.natAbs = x.m := by
      simp only [signedOf, reduceIte]
      omega
    have hxx : (⟨signedOf true x.m.natAbs, x.e⟩ : JNum) = x := by
      rw [hx]
    rw [hxx]
  · obtain ⟨a0, A1, hA⟩ : ∃ a0 A1,
        (natPadded x.m.natAbs (x.e + 1)).take ((natPadded x.m.natAbs (x.e + 1)).length - x.e) = a0 :: A1 := by
      apply List.exists_cons_of_ne_nil
      apply List.ne_nil_of_length_pos
      have hL := natPadded_length x.m.natAbs (x.e + 1)
      simp [List.length_take]
      omega
    have ha0 : a0.isDigit = true := by
      have : a0 ∈ natPadded x.m.natAbs (x.e + 1) :=
        List.take_subset _ _ (by rw [hA]; simp)
      exact mem_natPadded_isDigit _ _ a0 this
    have hp : printNum x ++ rest =
        (natPadded x.m.natAbs (x.e + 1)).take ((natPadded x.m.natAbs (x.e + 1)).length - x.e) ++
          '.' :: ((natPadded x.m.natAbs (x.e + 1)).drop ((natPadded x.m.natAbs (x.e + 1)).length - x.e) ++ rest) := by
      rw [printNum]
      simp only [hene, if_false, hm, reduceIte]
      simpa using hassoc []
    rw [hp, parseNum]
    rw [hA]
    simp only [List.cons_append, headIs]
    have hne : (a0 = '-') = False := by
      simp [isDigit_ne_dash a0 ha0]
    simp only [hne, decide_False, Bool.false_eq_true, reduceIte]
    rw [← List.cons_append, ← hA, hcore]
    simp only [Option.map]
    have hx : signedOf false x.m.natAbs = x.m := by
      simp only [signedOf, Bool.false_eq_true, reduceIte]
      omega
    rw [show (⟨signedOf false x.m.natAbs, x.e⟩ : JNum) = x from by rw [hx]]

theorem parseNum_printNum (x : JNum) (rest : List Char) (hrest : numStop rest = true) :
    parseNum (printNum x ++ rest) = some (x, rest) := by
  rcases Nat.eq_zero_or_pos x.e with he | he
  · exact parseNum_print_int x rest he hrest
  · exact parseNum_print_frac x rest he hrest

theorem stringMk_data (s : String) : String.mk s.data = s := by
  cases s
  rfl

theorem isDigit_ne_lit (c d : Char) (hc : c.isDigit = true) (hd : d.isDigit = false) :
    c ≠ d := by
  intro he
  rw [he, hd] at hc
  exact Bool.noConfusion hc

theorem printNum_head (x : JNum) :
    ∃ c cs, printNum x = c :: cs ∧ (c = '-' ∨ c.isDigit = true) := by
  by_cases hm : x.m < 0
  · by_cases he : x.e = 0
    · exact ⟨'-', natPadded x.m.natAbs (x.e + 1), by simp [printNum, he, hm], Or.inl rfl⟩
    · refine ⟨'-', (natPadded x.m.natAbs (x.e + 1)).take ((natPadded x.m.natAbs (x.e + 1)).length - x.e) ++
        '.' :: (natPadded x.m.natAbs (x.e + 1)).drop ((natPadded x.m.natAbs (x.e + 1)).length - x.e),
        ?_, Or.inl rfl⟩
      simp [printNum, he, hm]
  · by_cases he : x.e = 0
    · obtain ⟨d0, D1, hD⟩ : ∃ d0 D1, natPadded x.m.natAbs (x.e + 1) = d0 :: D1 :=
        List.exists_cons_of_ne_nil (natPadded_ne_nil _ _ (by omega))
      refine ⟨d0, D1, ?_, Or.inr (mem_natPadded_isDigit _ _ d0 (by rw [hD]; simp))⟩
      rw [he] at hD
      simp only [printNum, he, hm, reduceIte, List.nil_append]
      simpa using hD
    · obtain ⟨a0, A1, hA⟩ : ∃ a0 A1,
          (natPadded x.m.natAbs (x.e + 1)).take ((natPadded x.m.natAbs (x.e + 1)).length - x.e) = a0 :: A1 := by
        apply List.exists_cons_of_ne_nil
        apply List.ne_nil_of_length_pos
        have hL := natPadded_length x.m.natAbs (x.e + 1)
        simp [List.length_take]
        omega
      have ha0 : a0.isDigit = true :=
        mem_natPadded_isDigit _ _ a0 (List.take_subset _ _ (by rw [hA]; simp))
      refine ⟨a0, A1 ++ '.' :: (natPadded x.m.natAbs (x.e + 1)).drop ((natPadded x.m.natAbs (x.e + 1)).length - x.e),
        ?_, Or.inr ha0⟩
      simp only [printNum, he, hm, if_false, reduceIte, List.nil_append, hA, List.cons_append]

theorem printVal_cons (t : JTree) :
    ∃ c cs, printVal t = c :: cs ∧ (c = ']') = False := by
  cases t with
  | null => exact ⟨'n', _, rfl, by decide⟩
  | bool b =>
    cases b with
    | true => exact ⟨'t', _, rfl, by decide⟩
    | false => exact ⟨'f', _, rfl, by decide⟩
  | num x =>
    obtain ⟨c, cs, hpr, hcl⟩ := printNum_head x
    refine ⟨c, cs, by rw [show printVal (.num x) = printNum x from rfl, hpr], ?_⟩
    rcases hcl with hc | hc
    · subst hc
      decide
    · simp [isDigit_ne_lit c ']' hc (by decide)]
  | str s => exact ⟨'"', _, rfl, by decide⟩
  | arr l => exact ⟨'[', _, rfl, by decide⟩
  | obj fs => exact ⟨'{', _, rfl, by decide⟩

theorem printSep_numStop (ts : JItems) (r : List Char) :
    numStop (printSep ts ++ ']' :: r) = true := by
  cases ts with
  | nil => rfl
  | cons t tl => rfl

theorem printFieldSep_numStop (fs : JFields) (r : List Char) :
    numStop (printFieldSep fs ++ '}' :: r) = true := by
  cases fs with
  | nil => rfl
  | cons k v tl => rfl

theorem num_head_facts (c : Char) (hcl : c = '-' ∨ c.isDigit = true) :
    ((c = 'n') = False) ∧ ((c = 't') = False) ∧ ((c = 'f') = False) ∧
    ((c = '"') = False) ∧ ((c = '[') = False) ∧ ((c = '{') = False) ∧
    ((c = '-' ∨ c.isDigit = true) = True) := by
  rcases hcl with hc | hc
  · subst hc
    exact ⟨by decide, by decide, by decide, by decide, by decide, by decide, by simp⟩
  · exact ⟨eq_false (isDigit_ne_lit c 'n' hc (by decide)),
      eq_false (isDigit_ne_lit c 't' hc (by decide)),
      eq_false (isDigit_ne_lit c 'f' hc (by decide)),
      eq_false (isDigit_ne_lit c '"' hc (by decide)),
      eq_false (isDigit_ne_lit c '[' hc (by decide)),
      eq_false (isDigit_ne_lit c '{' hc (by decide)),
      by simp [hc]⟩

mutual

theorem parseVal_print : ∀ (fuel : Nat) (t : JTree) (rest : List Char),
    (printVal t).length < fuel → numStop rest = true →
    parseVal fuel (printVal t ++ rest) = some (t, rest)
  | 0, t, rest => by
    intro h _
    exact absurd h (by omega)
  | fuel + 1, t, rest => by
    intro hlen hrest
    cases t with
    | null =>
      rw [show printVal .null ++ rest = 'n' :: 'u' :: 'l' :: 'l' :: rest from rfl,
        parseVal.eq_def]
      simp [expectLit]
    | bool b =>
      cases b with
      | true =>
        rw [show printVal (.bool true) ++ rest = 't' :: 'r' :: 'u' :: 'e' :: rest from rfl,
          parseVal.eq_def]
        simp [expectLit]
      | false =>
        rw [show printVal (.bool false) ++ rest =
              'f' :: 'a' :: 'l' :: 's' :: 'e' :: rest from rfl,
          parseVal.eq_def]
        simp [expectLit]
    | str s =>
      rw [show printVal (.str s) ++ rest = '"' :: (escList s.data ++ '"' :: rest) from by
            simp [printVal], parseVal.eq_def]
      simp [parseStrBody_escList s.data rest, stringMk_data]
    | num x =>
      obtain ⟨c, cs, hpr, hcl⟩ := printNum_head x
      obtain ⟨e1, e2, e3, e4, e5, e6, e7⟩ := num_head_facts c hcl
      rw [show printVal (.num x) ++ rest = c :: (cs ++ rest) from by
            rw [show printVal (.num x) = printNum x from rfl, hpr]; simp,
        parseVal.eq_def]
      simp only [e1, e2, e3, e4, e5, e6, e7, if_false, if_true]
      rw [← List.cons_append, ← hpr, parseNum_printNum x rest hrest]
      simp
    | arr l =>
      cases l with
      | nil =>
        rw [show printVal (.arr .nil) ++ rest = '[' :: (']' :: rest) from rfl, parseVal.eq_def]
        simp [headIs]
      | cons t ts =>
        have hlsub : (printVal t).length < fuel ∧ (printSep ts).length < fuel := by
          have hform : printVal (.arr (.cons t ts)) =
              '[' :: (printVal t ++ printSep ts ++ [']']) := by
            simp [printVal, printItems]
          rw [hform] at hlen
          simp only [List.length_cons, List.length_append] at hlen
          omega
        obtain ⟨c0, cs0, hc0, hc0ne⟩ := printVal_cons t
        rw [show printVal (.arr (.cons t ts)) ++ rest =
              '[' :: (printVal t ++ (printSep ts ++ ']' :: rest)) from by
              simp [printVal, printItems], parseVal.eq_def]
        have hhead : headIs ']' (printVal t ++ (printSep ts ++ ']' :: rest)) = false := by
          rw [hc0]
          simp [headIs, hc0ne]
        simp [hhead, parseVal_print fuel t _ hlsub.1 (printSep_numStop ts rest),
          parseArrSep_print fuel ts rest hlsub.2]
    | obj fs =>
      cases fs with
      | nil =>
        rw [show printVal (.obj .nil) ++ rest = '{' :: ('}' :: rest) from rfl, parseVal.eq_def]
        simp [headIs]
      | cons k v tl =>
        have hlsub : (printVal v).length < fuel ∧ (printFieldSep tl).length < fuel := by
          have hform : printVal (.obj (.cons k v tl)) =
              '{' :: ('"' :: (escList k.data ++ '"' :: ':' :: (printVal v ++ printFieldSep tl)) ++ ['}']) := by
            simp [printVal, printFields]
          rw [hform] at hlen
          simp only [List.length_cons, List.length_append] at hlen
          omega
        rw [show printVal (.obj (.cons k v tl)) ++ rest =
              '{' :: '"' :: (escList k.data ++ '"' ::
                (':' :: (printVal v ++ (printFieldSep tl ++ '}' :: rest)))) from by
              simp [printVal, printFields], parseVal.eq_def]
        simp [headIs,
          parseStrBody_escList k.data (':' :: (printVal v ++ (printFieldSep tl ++ '}' :: rest))),
          parseVal_print fuel v _ hlsub.1 (printFieldSep_numStop tl rest),
          parseObjSep_print fuel tl rest hlsub.2, stringMk_data]

theorem parseArrSep_print : ∀ (fuel : Nat) (ts : JItems) (rest : List Char),
    (printSep ts).length < fuel →
    parseArrSep fuel (printSep ts ++ ']' :: rest) = some (ts, rest)
  | 0, ts, rest => by
    intro h
    exact absurd h (by omega)
  | fuel + 1, ts, rest => by
    intro hlen
    cases ts with
    | nil =>
      rw [show printSep .nil ++ ']' :: rest = ']' :: rest from rfl, parseArrSep.eq_def]
      simp
    | cons t tl =>
      have hlsub : (printVal t).length < fuel ∧ (printSep tl).length < fuel := by
        have hform : printSep (.cons t tl) = ',' :: (printVal t ++ printSep tl) := by
          simp [printSep]
        rw [hform] at hlen
        simp only [List.length_cons, List.length_append] at hlen
        omega
      rw [show printSep (.cons t tl) ++ ']' :: rest =
            ',' :: (printVal t ++ (printSep tl ++ ']' :: rest)) from by simp [printSep],
        parseArrSep.eq_def]
      simp [parseVal_print fuel t _ hlsub.1 (printSep_numStop tl rest),
        parseArrSep_print fuel tl rest hlsub.2]

theorem parseObjSep_print : ∀ (fuel : Nat) (fs : JFields) (rest : List Char),
    (printFieldSep fs).length < fuel →
    parseObjSep fuel (printFieldSep fs ++ '}' :: rest) = some (fs, rest)
  | 0, fs, rest => by
    intro h
    exact absurd h (by omega)
  | fuel + 1, fs, rest => by
    intro hlen
    cases fs with
    | nil =>
      rw [show printFieldSep .nil ++ '}' :: rest = '}' :: rest from rfl, parseObjSep.eq_def]
      simp
    | cons k v tl =>
      have hlsub : (printVal v).length < fuel ∧ (printFieldSep tl).length < fuel := by
        have hform : printFieldSep (.cons k v tl) =
            ',' :: '"' :: (escList k.data ++ '"' :: ':' :: (printVal v ++ printFieldSep tl)) := by
          simp [printFieldSep]
        rw [hform] at hlen
        simp only [List.length_cons, List.length_append] at hlen
        omega
      rw [show printFieldSep (.cons k v tl) ++ '}' :: rest =
            ',' :: '"' :: (escList k.data ++ '"' ::
              (':' :: (printVal v ++ (printFieldSep tl ++ '}' :: rest)))) from by
            simp [printFieldSep], parseObjSep.eq_def]
      simp [headIs,
        parseStrBody_escList k.data (':' :: (printVal v ++ (printFieldSep tl ++ '}' :: rest))),
        parseVal_print fuel v _ hlsub.1 (printFieldSep_numStop tl rest),
        parseObjSep_print fuel tl rest hlsub.2, stringMk_data]

end

theorem parseVal_print_closed (t : JTree) :
    parseVal ((printVal t).length + 1) (printVal t) = some (t, []) := by
  have h := parseVal_print ((printVal t).length + 1) t [] (by omega) rfl
  rwa [List.append_nil] at h

theorem roundTrip_doc (d : JsonObject) :
    JsonObject.opEq (JsonObject.ofString ((d.View).writeCompact false)) d = true := by
  cases hv : d.m_value with
  | none =>
    have hw : (d.View).writeCompact false = "" := by
      simp [JsonObject.View, JsonView.writeCompact, hv]
    rw [hw]
    rw [show JsonObject.ofString "" = ⟨none, false, "Failed to parse JSON at: "⟩ from rfl]
    simp [JsonObject.opEq, rootCompare, hv]
  | some t =>
    have hw : (d.View).writeCompact false = String.mk (printVal t) := by
      simp [JsonObject.View, JsonView.writeCompact, hv]
    rw [hw]
    have hlen : (String.mk (printVal t)).length = (printVal t).length := rfl
    have hdata : (String.mk (printVal t)).data = printVal t := rfl
    rw [JsonObject.ofString, hlen, hdata, parseVal_print_closed t]
    simp [JsonObject.opEq, rootCompare, hv, treeEq_refl]

/-- Claim C6. For every document built purely from With and As builder
calls, parsing the compact serialization reproduces a structurally equal
tree: the document constructed from WriteCompact output compares equal to
the original (the proof goes through `roundTrip_doc`, which gives the
round trip for every document of the model). -/
theorem claim6_parse_of_print (prog : BuildProg) (d : JsonObject)
    (hbuilt : runProg prog JsonObject.empty = some d) :
    JsonObject.opEq (JsonObject.ofString ((d.View).writeCompact false)) d = true :=
  roundTrip_doc d

theorem claim6_witness :
    runProg demoProg JsonObject.empty = some demoDoc ∧
      JsonObject.opEq (JsonObject.ofString ((demoDoc.View).writeCompact false)) demoDoc = true :=
  ⟨by decide, claim6_parse_of_print demoProg demoDoc (by decide)⟩
